import Mathlib

/-!
Verification of the iterative pruning task generators of this repository
(`nni/algorithms/compression/v2/pytorch/pruning/tools/task_generator.py`)
and of the command decoder (`nni/runtime/commands/base.py`).

Python floats are modelled as rationals (`ℚ`), so every arithmetic statement
below is about the exact real-number semantics of the formulas in the source.
Python dictionaries are modelled as association lists, and the NumPy random
draws consumed by the simulated-annealing generator are supplied explicitly
as oracle streams, one entry per draw the code makes.
-/

namespace NNI

/-- Python `int()` applied to a float: truncation toward zero. -/
def pyInt (q : ℚ) : ℤ := if 0 ≤ q then ⌊q⌋ else ⌈q⌉

/-- `total_weights` as accumulated by the loop of
`SimulatedAnnealingTaskGenerator._rescale_sparsity`: the sum of the
(sorted) per-op weight element counts. -/
def total_weights (num_weights : List ℕ) : ℕ := num_weights.sum

/-- `total_weights_pruned` as accumulated by the loop of `_rescale_sparsity`:
`int(num_weight * sparsity[idx])` summed over the positional pairing of the
two (sorted) lists.  `zip` truncates to the shorter list, which is harmless
because the function asserts that the lists have equal length. -/
def total_weights_pruned (num_weights : List ℕ) (sparsity : List ℚ) : ℤ :=
  ((num_weights.zip sparsity).map (fun p => pyInt ((p.1 : ℚ) * p.2))).sum

/-- `SimulatedAnnealingTaskGenerator._rescale_sparsity`.  The per-op weight
element counts are passed directly (the Python code looks them up from
`self.weights_numel[op_name]` for each op name).  Both the candidate fraction
vector and the weight sizes are sorted ascending; the scale is
`target_sparsity / (total_weights_pruned / total_weights)`; `None` is
returned when `total_weights_pruned == 0`. -/
def rescale_sparsity (random_sparsity : List ℚ) (target_sparsity : ℚ)
    (num_weights : List ℕ) : Option (List ℚ) :=
  let nw := num_weights.mergeSort (fun a b => decide (a ≤ b))
  let sp := random_sparsity.mergeSort (fun a b => decide (a ≤ b))
  let pruned := total_weights_pruned nw sp
  if pruned = 0 then none
  else
    let scale := target_sparsity / ((pruned : ℚ) / ((total_weights nw : ℚ)))
    some (sp.map (fun s => s * scale))

theorem pyInt_eq_floor {q : ℚ} (h : 0 ≤ q) : pyInt q = ⌊q⌋ := by
  simp [pyInt, h]

theorem mem_mergeSort_rat {a : ℚ} {l : List ℚ} :
    a ∈ l.mergeSort (fun a b => decide (a ≤ b)) ↔ a ∈ l :=
  (List.mergeSort_perm l _).mem_iff

/-- When every fraction is nonnegative, the truncated pruned count agrees
with the floored pruned count of claim C2. -/
theorem total_weights_pruned_eq_floor (nw : List ℕ) (sp : List ℚ)
    (h : ∀ f ∈ sp, 0 ≤ f) :
    total_weights_pruned nw sp =
      ((nw.zip sp).map (fun q => ⌊(q.1 : ℚ) * q.2⌋)).sum := by
  unfold total_weights_pruned
  congr 1
  apply List.map_congr_left
  intro p hp
  have hp2 : p.2 ∈ sp := (List.of_mem_zip hp).2
  exact pyInt_eq_floor (mul_nonneg (by positivity) (h _ hp2))

/-- C2: with nonnegative candidate fractions, `_rescale_sparsity` returns
`None` exactly when the floored pruned-element count is zero, and otherwise
returns the ascending-sorted fraction vector scaled elementwise by
`target / (pruned / total)`. -/
theorem rescale_sparsity_none_iff_and_value (fr : List ℚ) (t : ℚ) (ws : List ℕ)
    (hf : ∀ f ∈ fr, 0 ≤ f) (ht0 : 0 < t) (ht1 : t < 1)
    (hw : ∀ w ∈ ws, 0 < w) (hlen : fr.length = ws.length) :
    ∀ (nw : List ℕ) (sp : List ℚ) (p : ℤ),
      nw = ws.mergeSort (fun a b => decide (a ≤ b)) →
      sp = fr.mergeSort (fun a b => decide (a ≤ b)) →
      p = ((nw.zip sp).map (fun q => ⌊(q.1 : ℚ) * q.2⌋)).sum →
      (rescale_sparsity fr t ws = none ↔ p = 0) ∧
      (p ≠ 0 → rescale_sparsity fr t ws =
        some (sp.map (fun s => s * (t / ((p : ℚ) / (nw.sum : ℚ)))))) := by
  intro nw sp p hnw hsp hp
  have hre : rescale_sparsity fr t ws =
      if total_weights_pruned nw sp = 0 then none
      else some (sp.map (fun s => s * (t / ((total_weights_pruned nw sp : ℚ) /
        ((total_weights nw : ℚ)))))) := by
    rw [hnw, hsp]
    rfl
  have hspos : ∀ f ∈ sp, 0 ≤ f := by
    intro f hmem
    rw [hsp] at hmem
    exact hf f (mem_mergeSort_rat.mp hmem)
  have heq : total_weights_pruned nw sp = p := by
    rw [hp]
    exact total_weights_pruned_eq_floor nw sp hspos
  constructor
  · constructor
    · intro hnone
      by_contra hne
      rw [hre, heq, if_neg hne] at hnone
      exact Option.noConfusion hnone
    · intro hzero
      rw [hre, heq, if_pos hzero]
  · intro hne
    rw [hre, heq, if_neg hne]
    rfl

/-- Witness for C2 at `fr = [1/2]`, `t = 1/2`, `ws = [2]`: the pruned count
is `⌊2·(1/2)⌋ = 1 ≠ 0` and the returned vector is `[1/2]`. -/
theorem rescale_sparsity_none_iff_and_value_witness :
    rescale_sparsity [(1 : ℚ)/2] ((1 : ℚ)/2) [2] ≠ none ∧
    rescale_sparsity [(1 : ℚ)/2] ((1 : ℚ)/2) [2] = some [(1 : ℚ)/2] := by
  have h := rescale_sparsity_none_iff_and_value [(1 : ℚ)/2] ((1 : ℚ)/2) [2]
    (by norm_num) (by norm_num) (by norm_num) (by norm_num) (by norm_num)
    [2] [(1 : ℚ)/2] 1
    (by rw [List.mergeSort_singleton])
    (by rw [List.mergeSort_singleton])
    (by
      simp only [List.zip_cons_cons, List.zip_nil_right, List.map_cons,
        List.map_nil, List.sum_cons, List.sum_nil]
      norm_num)
  have h2 := h.2 (by norm_num)
  constructor
  · rw [h2]
    exact Option.noConfusion
  · rw [h2]
    norm_num

/-- The weighted pruned fraction `Σ wᵢ·sᵢ / Σ wᵢ` of a per-op sparsity vector
paired positionally with weight element counts (the quantity claim C7 says
`_rescale_sparsity` restores to `target_total`). -/
def weighted_pruned_frac (nw : List ℕ) (sp : List ℚ) : ℚ :=
  ((nw.zip sp).map (fun p => (p.1 : ℚ) * p.2)).sum / ((nw.sum : ℚ))

theorem total_weights_pruned_ne_zero_sum_ne_zero {nw : List ℕ} {sp : List ℚ}
    (hp : total_weights_pruned nw sp ≠ 0) : (nw.sum : ℚ) ≠ 0 := by
  intro hW
  apply hp
  have hz : ∀ w ∈ nw, w = 0 :=
    List.sum_eq_zero_iff.mp (by exact_mod_cast hW)
  unfold total_weights_pruned
  have : ∀ q ∈ nw.zip sp, pyInt ((q.1 : ℚ) * q.2) = 0 := by
    intro q hq
    have h1 : q.1 = 0 := hz q.1 (List.of_mem_zip hq).1
    simp [h1, pyInt]
  rw [List.map_congr_left (fun q hq => this q hq)]
  simp

/-- C7 fails as stated: at `fractions = [9/10]`, `target = 1/2`,
`weight sizes = [2]` the rescale succeeds (pruned count `⌊2·9/10⌋ = 1 > 0`)
but the weighted pruned fraction of the returned vector is `9/10`, which
misses the requested `1/2` by `2/5` — far beyond floating tolerance. -/
theorem rescale_sparsity_weighted_frac_counterexample :
    rescale_sparsity [(9 : ℚ)/10] ((1 : ℚ)/2) [2] = some [(9 : ℚ)/10] ∧
    weighted_pruned_frac [2] [(9 : ℚ)/10] = (9 : ℚ)/10 ∧
    |(9 : ℚ)/10 - (1 : ℚ)/2| = (2 : ℚ)/5 := by
  refine ⟨?_, ?_, ?_⟩
  · have h1 : pyInt (((2 : ℕ) : ℚ) * ((9 : ℚ)/10)) = 1 := by
      rw [pyInt_eq_floor (by norm_num)]
      norm_num [Int.floor_eq_iff]
    simp only [rescale_sparsity, List.mergeSort_singleton, total_weights_pruned,
      total_weights, List.zip_cons_cons, List.zip_nil_right, List.map_cons,
      List.map_nil, List.sum_cons, List.sum_nil, h1]
    norm_num
  · norm_num [weighted_pruned_frac]
  · norm_num [abs_of_nonneg]

/-- C7 amended: for every candidate fraction vector and weight-size vector
with nonzero truncated pruned count `p`, the rescale succeeds and the
weighted pruned fraction of the returned vector equals
`target · (Σ wᵢ·sᵢ) / p` — the target inflated by the ratio between the
exact and the truncated pruned counts; it equals the target exactly only
when that ratio is 1. -/
theorem rescale_sparsity_weighted_frac (fr : List ℚ) (t : ℚ) (ws : List ℕ)
    (hp : total_weights_pruned (ws.mergeSort (fun a b => decide (a ≤ b)))
        (fr.mergeSort (fun a b => decide (a ≤ b))) ≠ 0) :
    let nw := ws.mergeSort (fun a b => decide (a ≤ b))
    let sp := fr.mergeSort (fun a b => decide (a ≤ b))
    let p := total_weights_pruned nw sp
    let S := ((nw.zip sp).map (fun q => (q.1 : ℚ) * q.2)).sum
    ∃ v, rescale_sparsity fr t ws = some v ∧
      weighted_pruned_frac nw v = t * (S / ((p : ℚ))) := by
  intro nw sp p S
  have hW : ((nw.sum : ℚ)) ≠ 0 := total_weights_pruned_ne_zero_sum_ne_zero hp
  have hresc : rescale_sparsity fr t ws =
      some (sp.map (fun s => s * (t / ((p : ℚ) / ((total_weights nw : ℚ)))))) := by
    rw [show rescale_sparsity fr t ws = if total_weights_pruned nw sp = 0 then none
        else some (sp.map (fun s => s * (t / ((total_weights_pruned nw sp : ℚ) /
          ((total_weights nw : ℚ)))))) from rfl, if_neg hp]
  refine ⟨_, hresc, ?_⟩
  set c : ℚ := t / ((p : ℚ) / ((total_weights nw : ℚ))) with hc
  have hzip : nw.zip (sp.map (fun s => s * c)) =
      (nw.zip sp).map (fun q => (q.1, q.2 * c)) := by
    rw [List.zip_map_right]
    rfl
  have hsum : ((nw.zip (sp.map (fun s => s * c))).map (fun q => (q.1 : ℚ) * q.2)).sum
      = S * c := by
    rw [hzip, List.map_map]
    have : ((fun q : ℕ × ℚ => (q.1 : ℚ) * q.2) ∘ fun q : ℕ × ℚ => (q.1, q.2 * c))
        = fun q : ℕ × ℚ => ((q.1 : ℚ) * q.2) * c := by
      funext q
      simp [mul_assoc]
    rw [this, ← List.sum_map_mul_right]
  unfold weighted_pruned_frac
  rw [hsum, hc]
  have hpq : ((p : ℚ)) ≠ 0 := by exact_mod_cast hp
  unfold total_weights
  have key : ∀ Sq W pq tq : ℚ, W ≠ 0 → pq ≠ 0 →
      (Sq * (tq / (pq / W))) / W = tq * (Sq / pq) := by
    intro Sq W pq tq h1 h2
    field_simp
    ring
  exact key S ((nw.sum : ℚ)) ((p : ℚ)) t hW hpq

/-- Witness for the amended C7 at `fr = [1/2]`, `t = 1/2`, `ws = [2]`:
here the pruned count is exact (`⌊2·1/2⌋ = 1 = 2·1/2`), so the weighted
fraction is exactly the target `1/2 · (1/1) = 1/2`. -/
theorem rescale_sparsity_weighted_frac_witness :
    let nw := [2].mergeSort (fun a b => decide (a ≤ b))
    let sp := [(1 : ℚ)/2].mergeSort (fun a b => decide (a ≤ b))
    let p := total_weights_pruned nw sp
    let S := ((nw.zip sp).map (fun q => (q.1 : ℚ) * q.2)).sum
    ∃ v, rescale_sparsity [(1 : ℚ)/2] ((1 : ℚ)/2) [2] = some v ∧
      weighted_pruned_frac nw v = (1 : ℚ)/2 * (S / ((p : ℚ))) :=
  rescale_sparsity_weighted_frac [(1 : ℚ)/2] ((1 : ℚ)/2) [2] (by
    simp only [List.mergeSort_singleton, total_weights_pruned, List.zip_cons_cons,
      List.zip_nil_right, List.map_cons, List.map_nil, List.sum_cons, List.sum_nil]
    rw [pyInt_eq_floor (by norm_num)]
    norm_num)

/-- One canonical config entry: `{'total_sparsity': ..., 'op_names': [...]}`. -/
structure ConfigGroup where
  total_sparsity : ℚ
  op_names : List String
deriving DecidableEq

/-- Lookup in the `weights_numel` table (`op_name → element count`).  The
Python dict lookup never misses for the op names the generator handles. -/
def wlookup (W : List (String × ℕ)) (n : String) : ℕ :=
  ((W.find? (fun p => p.1 == n)).map Prod.snd).getD 0

/-- Lookup in the `masked_rate` table (`op_name → prior masked fraction`);
`none` models `name not in self.masked_rate`. -/
def mlookup (M : List (String × ℚ)) (n : String) : Option ℚ :=
  (M.find? (fun p => p.1 == n)).map Prod.snd

/-- `SimulatedAnnealingTaskGenerator._adjust_target_sparsity`: when prior
masks exist, each group's target is replaced by
`max(0, sparsity - pruned/(pruned + remaining))` where
`remaining = Σ weights_numel[name]` and
`pruned = Σ 1/(1/masked_rate[name] - 1) · weights_numel[name]` over the
group's ops that appear in `masked_rate`. -/
def adjust_target_sparsity (W : List (String × ℕ)) (M : List (String × ℚ))
    (targets : List ConfigGroup) : List ConfigGroup :=
  if M.length = 0 then targets
  else targets.map (fun config =>
    let remaining : ℚ := (config.op_names.map (fun n => ((wlookup W n : ℚ)))).sum
    let pruned : ℚ := (config.op_names.map (fun n =>
      match mlookup M n with
      | some m => 1 / (1/m - 1) * ((wlookup W n : ℚ))
      | none => 0)).sum
    ⟨max 0 (config.total_sparsity - pruned / (pruned + remaining)), config.op_names⟩)

/-- `SimulatedAnnealingTaskGenerator._recover_real_sparsity`: every exported
config entry holds a single op name (the code asserts this); when that op has
a prior masked fraction `m`, its sparsity `s` is replaced by
`m + s·(1 - m)`.  Entries whose op list is not a singleton are returned
unchanged (the Python assert would abort there; such entries are never
produced by the generator). -/
def recover_real_sparsity (M : List (String × ℚ)) (cl : List ConfigGroup) :
    List ConfigGroup :=
  cl.map (fun c =>
    match c.op_names with
    | [name] =>
      match mlookup M name with
      | some m => ⟨m + c.total_sparsity * (1 - m), c.op_names⟩
      | none => c
    | _ => c)

theorem mlookup_cons_self (n : String) (mval : ℚ) (M : List (String × ℚ)) :
    mlookup ((n, mval) :: M) n = some mval := by
  simp [mlookup, List.find?_cons_of_pos]

theorem wlookup_cons_self (n : String) (w : ℕ) (W : List (String × ℕ)) :
    wlookup ((n, w) :: W) n = w := by
  simp [wlookup, List.find?_cons_of_pos]

/-- C1 fails as stated: one op of weight 10 with prior masked fraction
`m = 1/5` and target `t = 1/2`.  The construction-time adjustment gives
`t' = 1/2 - 1/5 = 3/10` and the export-time recovery returns
`1/5 + (3/10)·(4/5) = 11/25 ≠ 1/2`, so the round trip loses the original
target. -/
theorem recover_adjust_roundtrip_counterexample :
    recover_real_sparsity [("op", (1 : ℚ)/5)]
      (adjust_target_sparsity [("op", 10)] [("op", (1 : ℚ)/5)]
        [⟨(1 : ℚ)/2, ["op"]⟩]) =
      [⟨(11 : ℚ)/25, ["op"]⟩] ∧ ((11 : ℚ)/25) ≠ (1 : ℚ)/2 := by
  constructor
  · simp only [adjust_target_sparsity, recover_real_sparsity, mlookup, wlookup,
      List.find?, List.map, List.sum_cons, List.sum_nil]
    norm_num
  · norm_num

/-- C1 amended: for a single op with prior masked fraction `m ∈ (0,1)` and
weight count `Wn > 0`, the adjustment-then-recovery round trip returns
`m + max(0, t - m)·(1 - m)` (the adjustment's subtrahend `P/(P+R)` does equal
`m`), and this equals the original target `t` exactly when `t = m`:
`_recover_real_sparsity` inverts `t' ↦ m + t'·(1-m)`, whose true inverse is
`t ↦ (t-m)/(1-m)`, not the implemented `t ↦ max(0, t-m)`. -/
theorem recover_adjust_roundtrip (m t : ℚ) (Wn : ℕ) (name : String)
    (hm0 : 0 < m) (hm1 : m < 1) (ht0 : 0 ≤ t) (ht1 : t < 1) (hW : 0 < Wn) :
    recover_real_sparsity [(name, m)]
      (adjust_target_sparsity [(name, Wn)] [(name, m)] [⟨t, [name]⟩]) =
      [⟨m + max 0 (t - m) * (1 - m), [name]⟩] ∧
    (m + max 0 (t - m) * (1 - m) = t ↔ t = m) := by
  have hm0' : m ≠ 0 := ne_of_gt hm0
  have hm1' : (1 : ℚ) - m ≠ 0 := by intro h; apply absurd hm1; rw [show (1:ℚ) = m by linarith]; simp
  have hWn : ((Wn : ℚ)) ≠ 0 := by
    have : (0 : ℚ) < (Wn : ℚ) := by exact_mod_cast hW
    exact ne_of_gt this
  have hinv : 1 / (1/m - 1) = m / (1 - m) := by
    rw [show 1/m - 1 = (1 - m)/m by field_simp, one_div_div]
  have hden : m / (1 - m) * ((Wn : ℚ)) + ((Wn : ℚ)) = ((Wn : ℚ)) / (1 - m) := by
    field_simp
    ring
  have hfrac : 1 / (1/m - 1) * ((Wn : ℚ)) /
      (1 / (1/m - 1) * ((Wn : ℚ)) + ((Wn : ℚ))) = m := by
    rw [hinv, hden]
    rw [div_div_eq_mul_div]
    rw [mul_comm (m / (1 - m) * ((Wn : ℚ))) (1 - m)]
    field_simp
  have hadj : adjust_target_sparsity [(name, Wn)] [(name, m)] [⟨t, [name]⟩] =
      [⟨max 0 (t - m), [name]⟩] := by
    unfold adjust_target_sparsity
    rw [if_neg (by simp)]
    simp only [List.map, mlookup_cons_self, wlookup_cons_self, List.sum_cons,
      List.sum_nil, add_zero]
    rw [hfrac]
  have hrec : recover_real_sparsity [(name, m)] [⟨max 0 (t - m), [name]⟩] =
      [⟨m + max 0 (t - m) * (1 - m), [name]⟩] := by
    simp only [recover_real_sparsity, List.map, mlookup_cons_self]
  refine ⟨by rw [hadj, hrec], ?_⟩
  constructor
  · intro heq
    rcases le_or_lt t m with hle | hlt
    · have hmax : max 0 (t - m) = 0 := max_eq_left (by linarith)
      rw [hmax] at heq
      simp at heq
      linarith
    · have hmax : max 0 (t - m) = t - m := max_eq_right (by linarith)
      rw [hmax] at heq
      have hfac : (t - m) * m = 0 := by nlinarith [heq]
      rcases mul_eq_zero.mp hfac with h | h
      · linarith
      · exact absurd h hm0'
  · intro heq
    rw [heq]
    simp

/-- Witness for the amended C1 at `m = 1/5`, `t = 1/2`, `Wn = 10`:
the round trip returns `1/5 + (3/10)·(4/5)` and `1/2 ≠ 1/5`. -/
theorem recover_adjust_roundtrip_witness :
    recover_real_sparsity [("op", (1 : ℚ)/5)]
      (adjust_target_sparsity [("op", 10)] [("op", (1 : ℚ)/5)]
        [⟨(1 : ℚ)/2, ["op"]⟩]) =
      [⟨(1 : ℚ)/5 + max 0 ((1 : ℚ)/2 - (1 : ℚ)/5) * (1 - (1 : ℚ)/5), ["op"]⟩] ∧
    ((1 : ℚ)/5 + max 0 ((1 : ℚ)/2 - (1 : ℚ)/5) * (1 - (1 : ℚ)/5) = (1 : ℚ)/2 ↔
      (1 : ℚ)/2 = (1 : ℚ)/5) :=
  recover_adjust_roundtrip ((1 : ℚ)/5) ((1 : ℚ)/2) 10 "op"
    (by norm_num) (by norm_num) (by norm_num) (by norm_num) (by norm_num)

/-- The shared body of `AGPTaskGenerator.generate_config_list`,
`LinearTaskGenerator.generate_config_list` and
`LotteryTicketTaskGenerator.generate_config_list`: the three classes differ
only in the cumulative-target formula computing `ori_sparsity` from the
group's target sparsity, passed here as `ori` (with the iteration and
`total_iteration` already applied).  Per group:
`sparsity = max(0, (ori_sparsity - mo)/(1 - mo))`; the Python
`assert 0 <= sparsity <= 1` is modelled as `Except.error` carrying the triple
`(sparsity, ori_sparsity, mo)` that the assertion message reports. -/
def generate_config_list (ori : ℚ → ℚ) :
    List ConfigGroup → List ℚ → Except (ℚ × ℚ × ℚ) (List ConfigGroup)
  | [], _ => .ok []
  | _, [] => .ok []
  | target :: ts, mo :: mos =>
    let ori_sparsity := ori target.total_sparsity
    let sparsity := max 0 ((ori_sparsity - mo) / (1 - mo))
    if 0 ≤ sparsity ∧ sparsity ≤ 1 then
      match generate_config_list ori ts mos with
      | .ok cl => .ok (⟨sparsity, target.op_names⟩ :: cl)
      | .error e => .error e
    else .error (sparsity, ori_sparsity, mo)

/-- AGP cumulative-target formula:
`ori_sparsity = (1 - (1 - iteration/total_iteration)^3) * target`. -/
def agp_ori (total_iteration iteration : ℕ) (target : ℚ) : ℚ :=
  (1 - (1 - (iteration : ℚ) / (total_iteration : ℚ))^3) * target

/-- Linear cumulative-target formula:
`ori_sparsity = iteration/total_iteration * target`.
(LotteryTicket's formula `1 - (1-target)^(iteration/total_iteration)` uses a
real fractional power; claims about the incremental-sparsity computation are
stated for an arbitrary cumulative formula `ori`, which covers it.) -/
def linear_ori (total_iteration iteration : ℕ) (target : ℚ) : ℚ :=
  (iteration : ℚ) / (total_iteration : ℚ) * target

/-- C3: for every cumulative-target formula `ori` (AGP, Linear and
LotteryTicket instantiate it), every emitted incremental sparsity equals
`max 0 ((C(i) - A)/(1 - A))` where `A` is the group's achieved
compact-vs-original sparsity; and whenever some group's value lies outside
`[0,1]` the generator aborts with an error reporting the offending sparsity,
cumulative-target and achieved values instead of returning a config list. -/
theorem generate_config_list_spec (ori : ℚ → ℚ) (targets : List ConfigGroup)
    (mos : List ℚ) :
    (∀ cl, generate_config_list ori targets mos = .ok cl →
      cl = (targets.zip mos).map (fun p =>
        ⟨max 0 ((ori p.1.total_sparsity - p.2) / (1 - p.2)), p.1.op_names⟩)) ∧
    ((∃ p ∈ targets.zip mos,
        ¬ (0 ≤ max 0 ((ori p.1.total_sparsity - p.2) / (1 - p.2)) ∧
           max 0 ((ori p.1.total_sparsity - p.2) / (1 - p.2)) ≤ 1)) →
      ∃ p ∈ targets.zip mos,
        ¬ (0 ≤ max 0 ((ori p.1.total_sparsity - p.2) / (1 - p.2)) ∧
           max 0 ((ori p.1.total_sparsity - p.2) / (1 - p.2)) ≤ 1) ∧
        generate_config_list ori targets mos =
          .error (max 0 ((ori p.1.total_sparsity - p.2) / (1 - p.2)),
                  ori p.1.total_sparsity, p.2)) := by
  induction targets generalizing mos with
  | nil =>
    constructor
    · intro cl hcl
      simp only [generate_config_list] at hcl
      cases hcl
      simp
    · rintro ⟨p, hp, -⟩
      simp at hp
  | cons target ts ih =>
    cases mos with
    | nil =>
      constructor
      · intro cl hcl
        simp only [generate_config_list] at hcl
        cases hcl
        simp
      · rintro ⟨p, hp, -⟩
        simp at hp
    | cons mo mos' =>
      by_cases hS : 0 ≤ max 0 ((ori target.total_sparsity - mo) / (1 - mo)) ∧
          max 0 ((ori target.total_sparsity - mo) / (1 - mo)) ≤ 1
      · constructor
        · intro cl hcl
          simp only [generate_config_list, if_pos hS] at hcl
          cases hrec : generate_config_list ori ts mos' with
          | error e =>
            rw [hrec] at hcl
            cases hcl
          | ok cl' =>
            rw [hrec] at hcl
            cases hcl
            rw [List.zip_cons_cons, List.map_cons]
            exact congrArg₂ List.cons rfl ((ih mos').1 cl' hrec)
        · rintro ⟨p, hp, hbad⟩
          rcases List.mem_cons.mp hp with heq | htail
          · subst heq
            exact absurd hS hbad
          · obtain ⟨q, hq, hqbad, hqerr⟩ := (ih mos').2 ⟨p, htail, hbad⟩
            refine ⟨q, List.mem_cons_of_mem _ hq, hqbad, ?_⟩
            simp only [generate_config_list, if_pos hS, hqerr]
      · constructor
        · intro cl hcl
          simp only [generate_config_list, if_neg hS] at hcl
          exact Except.noConfusion hcl
        · intro _
          refine ⟨(target, mo), List.mem_cons_self _ _, hS, ?_⟩
          simp only [generate_config_list, if_neg hS]

/-- Witness for C3: spec scenario A — AGP with `T = 1/2`, `N = 10`,
iteration 5 gives `C(5) = 7/16 = 0.4375`, and with achieved `A = 1/5` the
emitted incremental sparsity is `19/64 = 0.296875`. -/
theorem generate_config_list_spec_witness :
    generate_config_list (agp_ori 10 5) [⟨(1 : ℚ)/2, ["op"]⟩] [(1 : ℚ)/5] =
      .ok [⟨(19 : ℚ)/64, ["op"]⟩] ∧
    ([⟨(19 : ℚ)/64, ["op"]⟩] : List ConfigGroup) =
      (([⟨(1 : ℚ)/2, ["op"]⟩] : List ConfigGroup).zip [(1 : ℚ)/5]).map (fun p =>
        (⟨max 0 ((agp_ori 10 5 p.1.total_sparsity - p.2) / (1 - p.2)),
          p.1.op_names⟩ : ConfigGroup)) := by
  have hval : max 0 ((agp_ori 10 5 ((1 : ℚ)/2) - (1 : ℚ)/5) / (1 - (1 : ℚ)/5)) =
      (19 : ℚ)/64 := by
    rw [agp_ori]
    norm_num
  have hok : generate_config_list (agp_ori 10 5) [⟨(1 : ℚ)/2, ["op"]⟩]
      [(1 : ℚ)/5] = .ok [⟨(19 : ℚ)/64, ["op"]⟩] := by
    simp only [generate_config_list, hval]
    norm_num
  exact ⟨hok, (generate_config_list_spec (agp_ori 10 5) _ _).1 _ hok⟩

/-- The `FunctionBasedTaskGenerator` state that drives task generation. -/
structure FunState where
  current_iteration : ℕ
  total_iteration : ℕ
  task_id_candidate : ℕ
deriving DecidableEq

/-- `FunctionBasedTaskGenerator.generate_tasks`.  Model/mask persistence and
sparsity telemetry are I/O and do not influence the returned tasks.  When
`current_iteration > total_iteration` the call returns `[]` leaving the state
unchanged; otherwise it builds the config list for the current iteration
(a failed assert in `generate_config_list` propagates as `Except.error`),
emits the single task `(task_id_candidate, config_list)` and increments
`_task_id_candidate` and `current_iteration`. -/
def fun_generate_tasks (ori : ℕ → ℚ → ℚ) (targets : List ConfigGroup)
    (mos : List ℚ) (s : FunState) :
    Except (ℚ × ℚ × ℚ) (List (ℕ × List ConfigGroup) × FunState) :=
  if s.total_iteration < s.current_iteration then .ok ([], s)
  else
    match generate_config_list (ori s.current_iteration) targets mos with
    | .error e => .error e
    | .ok cl => .ok ([(s.task_id_candidate, cl)],
        ⟨s.current_iteration + 1, s.total_iteration, s.task_id_candidate + 1⟩)

/-- `FunctionBasedTaskGenerator.__init__` sets `current_iteration = 0`
(AGP and Linear use this directly). -/
def fun_init (total_iteration : ℕ) : FunState := ⟨0, total_iteration, 0⟩

/-- `LotteryTicketTaskGenerator.__init__` runs the base constructor and then
sets `current_iteration = 1`. -/
def lottery_ticket_init (total_iteration : ℕ) : FunState :=
  ⟨1, total_iteration, 0⟩

/-- The scheduling loop around `fun_generate_tasks`: keep calling it,
recording the iteration index at which each task is emitted, until no task
comes back (or the generator aborts). -/
def fun_run (ori : ℕ → ℚ → ℚ) (targets : List ConfigGroup) (mos : List ℚ)
    (s : FunState) : List ℕ :=
  if h : s.total_iteration < s.current_iteration then []
  else
    match fun_generate_tasks ori targets mos s with
    | .error _ => []
    | .ok ([], _) => []
    | .ok (_ :: _, _) =>
      s.current_iteration :: fun_run ori targets mos
        ⟨s.current_iteration + 1, s.total_iteration, s.task_id_candidate + 1⟩
termination_by s.total_iteration + 1 - s.current_iteration
decreasing_by
  show s.total_iteration + 1 - (s.current_iteration + 1) <
    s.total_iteration + 1 - s.current_iteration
  omega

theorem fun_run_eq_range' (ori : ℕ → ℚ → ℚ) (targets : List ConfigGroup)
    (mos : List ℚ)
    (herr : ∀ i, (generate_config_list (ori i) targets mos).isOk) :
    ∀ (k : ℕ) (s : FunState), s.total_iteration + 1 - s.current_iteration = k →
      fun_run ori targets mos s = List.range' s.current_iteration k := by
  intro k
  induction k with
  | zero =>
    intro s hk
    have hgt : s.total_iteration < s.current_iteration := by omega
    rw [fun_run.eq_def, dif_pos hgt, List.range'_zero]
  | succ k ihk =>
    intro s hk
    have hle : ¬ s.total_iteration < s.current_iteration := by omega
    obtain ⟨cl, hcl⟩ : ∃ cl, generate_config_list (ori s.current_iteration)
        targets mos = .ok cl := by
      cases hc : generate_config_list (ori s.current_iteration) targets mos with
      | error e =>
        have := herr s.current_iteration
        rw [hc] at this
        simp [Except.isOk, Except.toBool] at this
      | ok cl => exact ⟨cl, rfl⟩
    rw [fun_run.eq_def, dif_neg hle]
    simp only [fun_generate_tasks, if_neg hle, hcl]
    rw [List.range'_succ]
    congr 1
    have := ihk ⟨s.current_iteration + 1, s.total_iteration, s.task_id_candidate + 1⟩
      (by simp; omega)
    simpa using this

/-- C4: a `fun_generate_tasks` call that returns (rather than propagating an
assert) returns the empty list exactly when `current_iteration` exceeds
`total_iteration` and otherwise exactly one task; the counter starts at 0 for
AGP/Linear and at 1 for LotteryTicket, so over the whole run AGP/Linear emit
one task per iteration 0..N and LotteryTicket one per iteration 1..N. -/
theorem fun_generate_tasks_spec :
    (∀ (ori : ℕ → ℚ → ℚ) (targets : List ConfigGroup) (mos : List ℚ)
       (s : FunState) l s',
       fun_generate_tasks ori targets mos s = .ok (l, s') →
       ((l = [] ↔ s.total_iteration < s.current_iteration) ∧
        (¬ s.total_iteration < s.current_iteration → l.length = 1))) ∧
    (∀ N, (fun_init N).current_iteration = 0 ∧
       (lottery_ticket_init N).current_iteration = 1) ∧
    (∀ (ori : ℕ → ℚ → ℚ) (targets : List ConfigGroup) (mos : List ℚ) (N : ℕ),
       (∀ i, (generate_config_list (ori i) targets mos).isOk) →
       fun_run ori targets mos (fun_init N) = List.range (N + 1) ∧
       fun_run ori targets mos (lottery_ticket_init N) = List.range' 1 N) := by
  refine ⟨?_, fun N => ⟨rfl, rfl⟩, ?_⟩
  · intro ori targets mos s l s' h
    by_cases hgt : s.total_iteration < s.current_iteration
    · simp only [fun_generate_tasks, if_pos hgt, Except.ok.injEq,
        Prod.mk.injEq] at h
      constructor
      · rw [← h.1]
        simp [hgt]
      · intro hcon
        exact absurd hgt hcon
    · simp only [fun_generate_tasks, if_neg hgt] at h
      cases hc : generate_config_list (ori s.current_iteration) targets mos with
      | error e =>
        rw [hc] at h
        cases h
      | ok cl =>
        rw [hc] at h
        simp only [Except.ok.injEq, Prod.mk.injEq] at h
        constructor
        · rw [← h.1]
          simp [hgt]
        · intro _
          rw [← h.1]
          rfl
  · intro ori targets mos N herr
    constructor
    · rw [List.range_eq_range']
      exact fun_run_eq_range' ori targets mos herr (N + 1) (fun_init N) (by simp [fun_init])
    · exact fun_run_eq_range' ori targets mos herr N (lottery_ticket_init N)
        (by simp [lottery_ticket_init])

/-- Witness for C4: with one trivial group list the AGP/Linear start state
runs iterations `[0, 1]` for `N = 1` and the LotteryTicket start state runs
`[1]`. -/
theorem fun_generate_tasks_spec_witness :
    fun_run (fun _ t => t) [] [] (fun_init 1) = List.range 2 ∧
    fun_run (fun _ t => t) [] [] (lottery_ticket_init 1) = List.range' 1 1 :=
  fun_generate_tasks_spec.2.2 (fun _ t => t) [] [] 1 (fun _ => rfl)

/-- The op names of a group ordered by ascending weight element count:
`[k for k, _ in sorted(self.weights_numel.items(), key=...) if k in
config['op_names']]` in `_sparsity_to_config_list`.  Python's `sorted` and
`List.mergeSort` are both stable mergesorts comparing the dict values. -/
def ops_by_weight (W : List (String × ℕ)) (config : ConfigGroup) : List String :=
  ((W.mergeSort (fun a b => decide (a.2 ≤ b.2))).map Prod.fst).filter
    (fun n => config.op_names.contains n)

/-- `SimulatedAnnealingTaskGenerator._sparsity_to_config_list`: pair the
ascending-sorted sparsity vector positionally with the group's ops in
ascending weight order, emitting one single-op config per pair (`zip`
truncates; the code asserts equal lengths). -/
def sparsity_to_config_list (W : List (String × ℕ)) (sparsity : List ℚ)
    (config : ConfigGroup) : List ConfigGroup :=
  let sp := sparsity.mergeSort (fun a b => decide (a ≤ b))
  (sp.zip (ops_by_weight W config)).map (fun p => ⟨p.1, [p.2]⟩)

/-- The rejection-sampling loop of `_init_config_sparsity`: each iteration
draws a uniform vector (supplied by the oracle stream `draws`), sorts it,
rescales it, and accepts when the result exists with
`rescaled[0] >= 0 and rescaled[-1] < 1`.  `none` means the supplied stream
was exhausted before a feasible sample appeared (the Python loop would
continue drawing).  The `headD`/`getLastD` defaults are never observed: an
accepted vector is nonempty. -/
def init_sample_loop (W : List (String × ℕ)) (config : ConfigGroup) :
    List (List ℚ) → Option (List ℚ)
  | [] => none
  | d :: rest =>
    let random_sparsity := d.mergeSort (fun a b => decide (a ≤ b))
    match rescale_sparsity random_sparsity config.total_sparsity
        (config.op_names.map (wlookup W)) with
    | some rs =>
      if 0 ≤ rs.headD 0 ∧ rs.getLastD 0 < 1 then some rs
      else init_sample_loop W config rest
    | none => init_sample_loop W config rest

/-- `SimulatedAnnealingTaskGenerator._init_config_sparsity`: a group whose
target sparsity is 0 yields `([], [])` immediately; otherwise rejection
sampling runs until feasible. -/
def init_config_sparsity (W : List (String × ℕ)) (config : ConfigGroup)
    (draws : List (List ℚ)) : Option (List ConfigGroup × List ℚ) :=
  if config.total_sparsity = 0 then some ([], [])
  else (init_sample_loop W config draws).map
    (fun rs => (sparsity_to_config_list W rs config, rs))

/-- `SimulatedAnnealingTaskGenerator._init_temp_config_list`: builds the
initial `_temp_config_list` (concatenated per-group configs) and
`_temp_sparsity_list` (one vector per group).  Each group consumes one oracle
stream. -/
def init_temp_config_list (W : List (String × ℕ)) :
    List ConfigGroup → List (List (List ℚ)) →
      Option (List ConfigGroup × List (List ℚ))
  | [], _ => some ([], [])
  | _ :: _, [] => none
  | config :: rest, d :: ds =>
    match init_config_sparsity W config d with
    | none => none
    | some (cl, sl) =>
      (init_temp_config_list W rest ds).map
        (fun r => (cl ++ r.1, sl :: r.2))

/-- The rejection-sampling loop of `_update_with_perturbations` for one
group: perturb the current vector by the drawn offsets,
clip at 0 (`np.clip(0, current + perturbation, None)` computes the
elementwise maximum with 0), rescale, accept when feasible. -/
def perturb_loop (W : List (String × ℕ)) (config : ConfigGroup)
    (current : List ℚ) : List (List ℚ) → Option (List ℚ)
  | [] => none
  | d :: rest =>
    let temp0 := (current.zip d).map (fun p => max 0 (p.1 + p.2))
    match rescale_sparsity temp0 config.total_sparsity
        (config.op_names.map (wlookup W)) with
    | some ts =>
      if 0 ≤ ts.headD 0 ∧ ts.getLastD 0 < 1 then some ts
      else perturb_loop W config current rest
    | none => perturb_loop W config current rest

/-- `SimulatedAnnealingTaskGenerator._update_with_perturbations`: walk
`zip(self.target_sparsity_list, self._current_sparsity_list)`; a group whose
current vector is empty contributes `[]` and no configs and consumes no
randomness (`continue`); every other group rejection-samples a feasible
perturbed vector (one oracle stream per such group) and appends its configs
and its vector. -/
def update_with_perturbations (W : List (String × ℕ)) :
    List (ConfigGroup × List ℚ) → List (List (List ℚ)) →
      Option (List ConfigGroup × List (List ℚ))
  | [], _ => some ([], [])
  | (config, current) :: rest, draws =>
    if current.isEmpty then
      (update_with_perturbations W rest draws).map
        (fun r => (r.1, ([] : List ℚ) :: r.2))
    else
      match draws with
      | [] => none
      | d :: ds =>
        match perturb_loop W config current d with
        | none => none
        | some ts =>
          (update_with_perturbations W rest ds).map
            (fun r => (sparsity_to_config_list W ts config ++ r.1, ts :: r.2))

/-- The mutable state of `SimulatedAnnealingTaskGenerator` that drives task
generation.  `temp` bundles `_temp_config_list` and `_temp_sparsity_list`
(`none` models `_temp_config_list is None`, the not-yet-initialized flag;
the two are always set together). -/
structure SAState where
  start_temperature : ℚ
  stop_temperature : ℚ
  cool_down_rate : ℚ
  perturbation_magnitude : ℚ
  current_temperature : ℚ
  current_score : Option ℚ
  current_sparsity_list : Option (List (List ℚ))
  temp : Option (List ConfigGroup × List (List ℚ))
deriving DecidableEq

/-- The per-call inputs `generate_tasks` obtains from its environment: the
score recorded for the previous task, the fresh uniform draw of the
acceptance test, `np.exp` (modelled as an arbitrary function, irrelevant to
the claims proved here), and the uniform draws consumed by the two
rejection-sampling phases. -/
structure SAOracle where
  score : ℚ
  accept_rand : ℚ
  expf : ℚ → ℚ
  init_draws : List (List (List ℚ))
  perturb_draws : List (List (List ℚ))

/-- Lines 305–315 of `generate_tasks`: record the first score
unconditionally; afterwards accept when
`self._current_score < score or np.random.uniform(0, 1) < probability` with
`probability = np.exp(-|score - current_score| / current_temperature)`,
adopting the candidate (`_temp_sparsity_list`, passed as `tsl`) and cooling
the temperature.  `current_score.getD 0` is never the default: the code
guarantees `_current_score` is set whenever `_current_sparsity_list` is. -/
def sa_accept_step (O : SAOracle) (tsl : List (List ℚ)) (s : SAState) : SAState :=
  match s.current_sparsity_list with
  | none =>
    { s with current_sparsity_list := some tsl, current_score := some O.score }
  | some _ =>
    let current_score := s.current_score.getD 0
    let delta_E := |O.score - current_score|
    let probability := O.expf (-delta_E / s.current_temperature)
    if current_score < O.score ∨ O.accept_rand < probability then
      { s with current_score := some O.score,
               current_sparsity_list := some tsl,
               current_temperature := s.current_temperature * s.cool_down_rate }
    else s

/-- `SimulatedAnnealingTaskGenerator.generate_tasks`.  Snapshot persistence
is I/O and omitted; a task is modelled by its exported config list (after
`_recover_real_sparsity`).  First call: initialize the temp lists and emit.
Later calls: run the acceptance update, return `[]` once
`current_temperature < stop_temperature`, otherwise perturb the current
assignment into a fresh candidate and emit it.  `none` models only the
modelling artifact of an exhausted oracle stream (the Python rejection loops
would keep drawing). -/
def sa_generate_tasks (W : List (String × ℕ)) (M : List (String × ℚ))
    (targets : List ConfigGroup) (O : SAOracle) (s : SAState) :
    Option (List (List ConfigGroup) × SAState) :=
  match s.temp with
  | none =>
    match init_temp_config_list W targets O.init_draws with
    | none => none
    | some (tcl, tsl) =>
      some ([recover_real_sparsity M tcl], { s with temp := some (tcl, tsl) })
  | some (_, tsl) =>
    let s1 := sa_accept_step O tsl s
    if s1.current_temperature < s1.stop_temperature then some ([], s1)
    else
      match update_with_perturbations W
          (targets.zip (s1.current_sparsity_list.getD [])) O.perturb_draws with
      | none => none
      | some (ncl, nsl) =>
        some ([recover_real_sparsity M ncl], { s1 with temp := some (ncl, nsl) })

theorem sa_accept_step_fields (O : SAOracle) (tsl : List (List ℚ)) (s : SAState) :
    (sa_accept_step O tsl s).stop_temperature = s.stop_temperature ∧
    (sa_accept_step O tsl s).cool_down_rate = s.cool_down_rate ∧
    (sa_accept_step O tsl s).temp = s.temp ∧
    (sa_accept_step O tsl s).current_temperature =
      (if s.current_sparsity_list.isSome ∧
          (s.current_score.getD 0 < O.score ∨
           O.accept_rand < O.expf (-(|O.score - s.current_score.getD 0|) /
             s.current_temperature))
       then s.current_temperature * s.cool_down_rate
       else s.current_temperature) := by
  unfold sa_accept_step
  cases hc : s.current_sparsity_list with
  | none => simp [hc]
  | some csl =>
    by_cases hcond : s.current_score.getD 0 < O.score ∨
        O.accept_rand < O.expf (-(|O.score - s.current_score.getD 0|) /
          s.current_temperature)
    · simp only [hc, if_pos hcond]
      simp [hcond]
    · simp only [hc, if_neg hcond]
      simp [hcond]

/-- C5: in the acceptance step of `generate_tasks`, a strictly better score
is accepted regardless of the uniform draw (and of the probability): the
candidate becomes current, the score is recorded, and the temperature is
multiplied by `cool_down_rate`.  The draw `O.accept_rand` and the
exponential `O.expf` are universally quantified (inside `O`). -/
theorem sa_accept_strict_improvement (W : List (String × ℕ))
    (M : List (String × ℚ)) (targets : List ConfigGroup) (O : SAOracle)
    (s : SAState) (tcl : List ConfigGroup) (tsl : List (List ℚ))
    (csl : List (List ℚ)) (c : ℚ) (l : List (List ConfigGroup)) (s' : SAState)
    (htemp : s.temp = some (tcl, tsl))
    (hcsl : s.current_sparsity_list = some csl)
    (hsc : s.current_score = some c)
    (himp : c < O.score)
    (hres : sa_generate_tasks W M targets O s = some (l, s')) :
    s'.current_score = some O.score ∧
    s'.current_sparsity_list = some tsl ∧
    s'.current_temperature = s.current_temperature * s.cool_down_rate := by
  have hstep : sa_accept_step O tsl s =
      { s with current_score := some O.score,
               current_sparsity_list := some tsl,
               current_temperature := s.current_temperature * s.cool_down_rate } := by
    unfold sa_accept_step
    simp only [hcsl, hsc, Option.getD_some]
    rw [if_pos (Or.inl himp)]
  unfold sa_generate_tasks at hres
  simp only [htemp] at hres
  obtain ⟨s1, hs1⟩ : ∃ s1 : SAState, sa_accept_step O tsl s = s1 := ⟨_, rfl⟩
  rw [hs1] at hres
  have hval : s1 =
      { s with current_score := some O.score,
               current_sparsity_list := some tsl,
               current_temperature := s.current_temperature * s.cool_down_rate } :=
    hs1.symm.trans hstep
  have hfields : s1.current_score = some O.score ∧
      s1.current_sparsity_list = some tsl ∧
      s1.current_temperature = s.current_temperature * s.cool_down_rate :=
    ⟨by rw [hval], by rw [hval], by rw [hval]⟩
  by_cases hstop : s1.current_temperature < s1.stop_temperature
  · rw [if_pos hstop] at hres
    simp only [Option.some.injEq, Prod.mk.injEq] at hres
    obtain ⟨-, hs'⟩ := hres
    subst hs'
    exact hfields
  · rw [if_neg hstop] at hres
    cases hupd : update_with_perturbations W
        (targets.zip (s1.current_sparsity_list.getD [])) O.perturb_draws with
    | none =>
      rw [hupd] at hres
      exact absurd hres (by simp)
    | some r =>
      obtain ⟨ncl, nsl⟩ := r
      rw [hupd] at hres
      simp only [Option.some.injEq, Prod.mk.injEq] at hres
      obtain ⟨-, hs'⟩ := hres
      subst hs'
      exact hfields

/-- Witness for C5: a concrete accepted step (current score 1, candidate
score 2) that cools `1 · 1/2 = 1/2` and adopts the candidate vector,
with an arbitrary draw value 0. -/
theorem sa_accept_strict_improvement_witness :
    (⟨1, 1, (1 : ℚ)/2, 0, 1 * ((1 : ℚ)/2), some 2, some [[(1 : ℚ)/2]],
        some ([], [[(1 : ℚ)/2]])⟩ : SAState).current_score = some (2 : ℚ) ∧
    (⟨1, 1, (1 : ℚ)/2, 0, 1 * ((1 : ℚ)/2), some 2, some [[(1 : ℚ)/2]],
        some ([], [[(1 : ℚ)/2]])⟩ : SAState).current_sparsity_list =
      some [[(1 : ℚ)/2]] ∧
    (⟨1, 1, (1 : ℚ)/2, 0, 1 * ((1 : ℚ)/2), some 2, some [[(1 : ℚ)/2]],
        some ([], [[(1 : ℚ)/2]])⟩ : SAState).current_temperature =
      1 * ((1 : ℚ)/2) := by
  have hres : sa_generate_tasks [] [] []
      (⟨2, 0, fun _ => 0, [], []⟩ : SAOracle)
      (⟨1, 1, (1 : ℚ)/2, 0, 1, some 1, some [[(1 : ℚ)/2]],
        some ([], [[(1 : ℚ)/2]])⟩ : SAState) =
      some ([], ⟨1, 1, (1 : ℚ)/2, 0, 1 * ((1 : ℚ)/2), some 2,
        some [[(1 : ℚ)/2]], some ([], [[(1 : ℚ)/2]])⟩) := by
    simp only [sa_generate_tasks, sa_accept_step, Option.getD_some]
    norm_num
  exact sa_accept_strict_improvement [] [] []
    (⟨2, 0, fun _ => 0, [], []⟩ : SAOracle)
    (⟨1, 1, (1 : ℚ)/2, 0, 1, some 1, some [[(1 : ℚ)/2]],
      some ([], [[(1 : ℚ)/2]])⟩ : SAState)
    [] [[(1 : ℚ)/2]] [[(1 : ℚ)/2]] 1 []
    (⟨1, 1, (1 : ℚ)/2, 0, 1 * ((1 : ℚ)/2), some 2,
      some [[(1 : ℚ)/2]], some ([], [[(1 : ℚ)/2]])⟩ : SAState)
    rfl rfl rfl (by norm_num) hres

/-- C6 fails as stated: a freshly constructed engine whose start temperature
(10) is already below its stop temperature (20) still emits a task on the
first call — the initial call builds and returns the first candidate without
ever checking the stop temperature. -/
theorem sa_stop_check_counterexample :
    (⟨10, 20, (1 : ℚ)/2, 7/20, 10, none, none, none⟩ :
        SAState).current_temperature <
      (⟨10, 20, (1 : ℚ)/2, 7/20, 10, none, none, none⟩ :
        SAState).stop_temperature ∧
    (0 : ℚ) < (1 : ℚ)/2 ∧ (1 : ℚ)/2 ≤ 1 ∧
    sa_generate_tasks [("a", 10)] [] [⟨(1 : ℚ)/2, ["a"]⟩]
      (⟨0, 0, fun _ => 0, [[[(1 : ℚ)/2]]], []⟩ : SAOracle)
      (⟨10, 20, (1 : ℚ)/2, 7/20, 10, none, none, none⟩ : SAState) =
      some ([[⟨(1 : ℚ)/2, ["a"]⟩]],
        ⟨10, 20, (1 : ℚ)/2, 7/20, 10, none, none,
          some ([⟨(1 : ℚ)/2, ["a"]⟩], [[(1 : ℚ)/2]])⟩) ∧
    ([[⟨(1 : ℚ)/2, ["a"]⟩]] : List (List ConfigGroup)) ≠ [] := by
  refine ⟨by norm_num, by norm_num, by norm_num, ?_, by simp⟩
  have hresc : rescale_sparsity [(1 : ℚ)/2] ((1 : ℚ)/2) [10] = some [(1 : ℚ)/2] := by
    have h5 : pyInt (((10 : ℕ) : ℚ) * ((1 : ℚ)/2)) = 5 := by
      rw [pyInt_eq_floor (by norm_num)]
      norm_num
    simp only [rescale_sparsity, List.mergeSort_singleton, total_weights_pruned,
      total_weights, List.zip_cons_cons, List.zip_nil_right, List.map_cons,
      List.map_nil, List.sum_cons, List.sum_nil, h5]
    norm_num
  simp only [sa_generate_tasks, init_temp_config_list, init_config_sparsity,
    init_sample_loop, sparsity_to_config_list, ops_by_weight, wlookup, mlookup,
    recover_real_sparsity, List.mergeSort_singleton, List.map, List.find?,
    List.filter, List.zip_cons_cons, List.zip_nil_right]
  norm_num [hresc, List.mergeSort_singleton, sparsity_to_config_list,
    ops_by_weight, wlookup, mlookup, recover_real_sparsity]

/-- C6 amended: with `0 < cool_down_rate ≤ 1`, on every non-initial call
(`_temp_config_list` already set) the temperature is multiplied by
`cool_down_rate` exactly when the acceptance step accepts and is unchanged
otherwise, and the call returns the empty list exactly when the post-update
temperature is below `stop_temperature`.  When additionally
`stop_temperature ≥ 0`, a non-initial call entered with
`temperature < stop_temperature` returns the empty list and preserves that
entire precondition, so by induction every subsequent call also returns the
empty list.  (The initial call emits its candidate without checking the stop
temperature — see the counterexample.) -/
theorem sa_temperature_spec (W : List (String × ℕ)) (M : List (String × ℚ))
    (targets : List ConfigGroup) (O : SAOracle) (s : SAState)
    (tcl : List ConfigGroup) (tsl : List (List ℚ))
    (hrate0 : 0 < s.cool_down_rate) (hrate1 : s.cool_down_rate ≤ 1)
    (htemp : s.temp = some (tcl, tsl)) :
    (∀ l s', sa_generate_tasks W M targets O s = some (l, s') →
       s'.current_temperature =
         (if s.current_sparsity_list.isSome ∧
             (s.current_score.getD 0 < O.score ∨
              O.accept_rand < O.expf (-(|O.score - s.current_score.getD 0|) /
                s.current_temperature))
          then s.current_temperature * s.cool_down_rate
          else s.current_temperature) ∧
       (l = [] ↔ s'.current_temperature < s'.stop_temperature) ∧
       s'.stop_temperature = s.stop_temperature) ∧
    (s.current_temperature < s.stop_temperature → 0 ≤ s.stop_temperature →
       ∃ s', sa_generate_tasks W M targets O s = some ([], s') ∧
         s'.current_temperature < s'.stop_temperature ∧
         s'.temp = some (tcl, tsl) ∧
         s'.stop_temperature = s.stop_temperature ∧
         s'.cool_down_rate = s.cool_down_rate) := by
  obtain ⟨s1, hs1⟩ : ∃ s1 : SAState, sa_accept_step O tsl s = s1 := ⟨_, rfl⟩
  have hfields := sa_accept_step_fields O tsl s
  rw [hs1] at hfields
  obtain ⟨hS, hR, hTp, hT⟩ := hfields
  constructor
  · intro l s' hres
    unfold sa_generate_tasks at hres
    simp only [htemp] at hres
    rw [hs1] at hres
    by_cases hstop : s1.current_temperature < s1.stop_temperature
    · rw [if_pos hstop] at hres
      simp only [Option.some.injEq, Prod.mk.injEq] at hres
      obtain ⟨hl, hs'⟩ := hres
      subst hs'
      exact ⟨hT, by simp [← hl, hstop], hS⟩
    · rw [if_neg hstop] at hres
      cases hupd : update_with_perturbations W
          (targets.zip (s1.current_sparsity_list.getD [])) O.perturb_draws with
      | none =>
        rw [hupd] at hres
        exact absurd hres (by simp)
      | some r =>
        obtain ⟨ncl, nsl⟩ := r
        rw [hupd] at hres
        simp only [Option.some.injEq, Prod.mk.injEq] at hres
        obtain ⟨hl, hs'⟩ := hres
        subst hs'
        refine ⟨hT, ?_, hS⟩
        constructor
        · intro hcon
          rw [← hl] at hcon
          cases hcon
        · intro hcon
          exact absurd hcon hstop
  · intro hlt hstop0
    have hs1lt : s1.current_temperature < s1.stop_temperature := by
      rw [hS, hT]
      by_cases hcond : s.current_sparsity_list.isSome ∧
          (s.current_score.getD 0 < O.score ∨
           O.accept_rand < O.expf (-(|O.score - s.current_score.getD 0|) /
             s.current_temperature))
      · rw [if_pos hcond]
        rcases le_or_lt 0 s.current_temperature with h0 | h0
        · exact lt_of_le_of_lt (mul_le_of_le_one_right h0 hrate1) hlt
        · exact lt_of_lt_of_le (mul_neg_of_neg_of_pos h0 hrate0) hstop0
      · rw [if_neg hcond]
        exact hlt
    refine ⟨s1, ?_, hs1lt, hTp.trans htemp, hS, hR⟩
    unfold sa_generate_tasks
    simp only [htemp]
    rw [hs1, if_pos hs1lt]

/-- Witness for the amended C6: a non-initial state with temperature `1/2`
below stop temperature `1` returns the empty list and preserves the stopping
precondition. -/
theorem sa_temperature_spec_witness :
    ∃ s', sa_generate_tasks [] [] []
        (⟨2, 0, fun _ => 0, [], []⟩ : SAOracle)
        (⟨1, 1, (1 : ℚ)/2, 0, (1 : ℚ)/2, some 1, some [[(1 : ℚ)/2]],
          some ([], [[(1 : ℚ)/2]])⟩ : SAState) = some ([], s') ∧
      s'.current_temperature < s'.stop_temperature ∧
      s'.temp = some (([] : List ConfigGroup), [[(1 : ℚ)/2]]) ∧
      s'.stop_temperature =
        (⟨1, 1, (1 : ℚ)/2, 0, (1 : ℚ)/2, some 1, some [[(1 : ℚ)/2]],
          some ([], [[(1 : ℚ)/2]])⟩ : SAState).stop_temperature ∧
      s'.cool_down_rate =
        (⟨1, 1, (1 : ℚ)/2, 0, (1 : ℚ)/2, some 1, some [[(1 : ℚ)/2]],
          some ([], [[(1 : ℚ)/2]])⟩ : SAState).cool_down_rate :=
  (sa_temperature_spec [] [] [] (⟨2, 0, fun _ => 0, [], []⟩ : SAOracle)
    (⟨1, 1, (1 : ℚ)/2, 0, (1 : ℚ)/2, some 1, some [[(1 : ℚ)/2]],
      some ([], [[(1 : ℚ)/2]])⟩ : SAState) [] [[(1 : ℚ)/2]]
    (by norm_num) (by norm_num) rfl).2 (by norm_num) (by norm_num)

/-- C9: a group whose (post-adjustment) `total_sparsity` is 0 contributes
nothing to any generated task: `_init_config_sparsity` returns an empty
config list and an empty sparsity vector without sampling, and every
`_update_with_perturbations` step maps an empty current vector to an empty
vector, skips its perturbation, and emits config entries only for groups
whose current vector is nonempty. -/
theorem sa_zero_sparsity_groups :
    (∀ (W : List (String × ℕ)) (ops : List String) (draws : List (List ℚ)),
       init_config_sparsity W ⟨0, ops⟩ draws = some ([], [])) ∧
    (∀ (W : List (String × ℕ)) (pairs : List (ConfigGroup × List ℚ))
       (draws : List (List (List ℚ))) (cl : List ConfigGroup)
       (sl : List (List ℚ)),
       update_with_perturbations W pairs draws = some (cl, sl) →
       (sl.length = pairs.length ∧
        ∀ i (hi : i < pairs.length), (pairs.get ⟨i, hi⟩).2 = [] →
          sl[i]? = some ([] : List ℚ)) ∧
       (∀ c ∈ cl, ∃ p ∈ pairs, p.2 ≠ [] ∧
          ∃ v, c ∈ sparsity_to_config_list W v p.1)) := by
  constructor
  · intro W ops draws
    simp [init_config_sparsity]
  · intro W pairs
    induction pairs with
    | nil =>
      intro draws cl sl h
      simp only [update_with_perturbations, Option.some.injEq,
        Prod.mk.injEq] at h
      obtain ⟨hcl, hsl⟩ := h
      subst hcl
      subst hsl
      refine ⟨⟨rfl, ?_⟩, ?_⟩
      · intro i hi
        simp at hi
      · intro c hc
        simp at hc
    | cons pc rest ih =>
      intro draws cl sl h
      obtain ⟨config, current⟩ := pc
      by_cases hcur : current.isEmpty
      · simp only [update_with_perturbations, if_pos hcur] at h
        cases hrec : update_with_perturbations W rest draws with
        | none =>
          rw [hrec] at h
          simp only [Option.map] at h
          exact Option.noConfusion h
        | some r =>
          obtain ⟨cl', sl'⟩ := r
          rw [hrec] at h
          simp only [Option.map, Option.some.injEq, Prod.mk.injEq] at h
          obtain ⟨hcl, hsl⟩ := h
          subst hcl
          subst hsl
          obtain ⟨⟨hlen, hidx⟩, hprov⟩ := ih draws cl' sl' hrec
          refine ⟨⟨by simp [hlen], ?_⟩, ?_⟩
          · intro i hi hpi
            cases i with
            | zero => simp
            | succ j =>
              have hj : j < rest.length := by
                simpa using hi
              have := hidx j hj (by simpa using hpi)
              simpa using this
          · intro c hc
            obtain ⟨p, hp, hpne, v, hv⟩ := hprov c hc
            exact ⟨p, List.mem_cons_of_mem _ hp, hpne, v, hv⟩
      · cases draws with
        | nil =>
          simp only [update_with_perturbations, if_neg hcur] at h
          exact Option.noConfusion h
        | cons d ds =>
          simp only [update_with_perturbations, if_neg hcur] at h
          cases hloop : perturb_loop W config current d with
          | none =>
            rw [hloop] at h
            exact absurd h (by simp)
          | some ts =>
            rw [hloop] at h
            cases hrec : update_with_perturbations W rest ds with
            | none =>
              rw [hrec] at h
              simp only [Option.map] at h
              exact Option.noConfusion h
            | some r =>
              obtain ⟨cl', sl'⟩ := r
              rw [hrec] at h
              simp only [Option.map, Option.some.injEq, Prod.mk.injEq] at h
              obtain ⟨hcl, hsl⟩ := h
              subst hcl
              subst hsl
              obtain ⟨⟨hlen, hidx⟩, hprov⟩ := ih ds cl' sl' hrec
              have hcur' : current ≠ [] := by
                intro hc0
                rw [hc0] at hcur
                exact hcur rfl
              refine ⟨⟨by simp [hlen], ?_⟩, ?_⟩
              · intro i hi hpi
                cases i with
                | zero => exact absurd hpi hcur'
                | succ j =>
                  have hj : j < rest.length := by
                    simpa using hi
                  have := hidx j hj (by simpa using hpi)
                  simpa using this
              · intro c hc
                rcases List.mem_append.mp hc with hleft | hright
                · exact ⟨(config, current), List.mem_cons_self _ _, hcur',
                    ts, hleft⟩
                · obtain ⟨p, hp, hpne, v, hv⟩ := hprov c hright
                  exact ⟨p, List.mem_cons_of_mem _ hp, hpne, v, hv⟩

/-- Witness for C9: a zero-target group yields `([], [])` at initialization,
and a perturbation step over one empty-current group yields no configs and
the preserved empty vector. -/
theorem sa_zero_sparsity_groups_witness :
    init_config_sparsity [("a", 10)] ⟨0, ["a"]⟩ [] = some ([], []) ∧
    ([([] : List ℚ)] : List (List ℚ))[0]? = some ([] : List ℚ) := by
  refine ⟨sa_zero_sparsity_groups.1 [("a", 10)] ["a"] [], ?_⟩
  have h := (sa_zero_sparsity_groups.2 [("a", 10)]
    [((⟨(1 : ℚ)/2, ["a"]⟩ : ConfigGroup), ([] : List ℚ))] [] [] [[]] (by
      simp [update_with_perturbations])).1
  exact h.2 0 (by simp) rfl

theorem mergeSort_congr_perm {α : Type} [LinearOrder α] {l l2 : List α}
    (h : l.Perm l2) :
    l.mergeSort (fun a b => decide (a ≤ b)) =
      l2.mergeSort (fun a b => decide (a ≤ b)) :=
  List.eq_of_perm_of_sorted
    ((List.mergeSort_perm l _).trans (h.trans (List.mergeSort_perm l2 _).symm))
    (List.sorted_mergeSort' l) (List.sorted_mergeSort' l2)

theorem zip_getElem?_eq {α β : Type} {l1 : List α} {l2 : List β} {i : ℕ}
    {x : α × β} (h : (l1.zip l2)[i]? = some x) :
    l1[i]? = some x.1 ∧ l2[i]? = some x.2 := by
  induction l1 generalizing l2 i with
  | nil => simp at h
  | cons a t ih =>
    cases l2 with
    | nil => simp at h
    | cons b t2 =>
      cases i with
      | zero =>
        simp only [List.zip_cons_cons, List.getElem?_cons_zero,
          Option.some.injEq] at h
        rw [← h]
        simp
      | succ j =>
        simp only [List.zip_cons_cons, List.getElem?_cons_succ] at h ⊢
        exact ih h

theorem wlookup_eq_of_mem {W : List (String × ℕ)} {n : String} {v : ℕ}
    (hnd : (W.map Prod.fst).Nodup) (hmem : (n, v) ∈ W) :
    wlookup W n = v := by
  induction W with
  | nil => simp at hmem
  | cons p rest ih =>
    simp only [List.map_cons, List.nodup_cons] at hnd
    obtain ⟨hhead, htail⟩ := hnd
    rcases List.mem_cons.mp hmem with heq | hmem'
    · rw [← heq]
      exact wlookup_cons_self n v rest
    · have hne : (p.1 == n) = false := by
        rw [beq_eq_false_iff_ne]
        intro he
        apply hhead
        rw [he]
        exact List.mem_map_of_mem Prod.fst hmem'
      obtain ⟨p1, p2⟩ := p
      simp only [wlookup, List.find?]
      simp only at hne
      rw [hne]
      exact ih htail hmem'

theorem ops_by_weight_sorted (W : List (String × ℕ)) (config : ConfigGroup)
    (hW : (W.map Prod.fst).Nodup) :
    List.Sorted (· ≤ ·) ((ops_by_weight W config).map (fun n => wlookup W n)) := by
  have htrans : ∀ a b c : String × ℕ, (decide (a.2 ≤ b.2)) = true →
      decide (b.2 ≤ c.2) = true → decide (a.2 ≤ c.2) = true := by
    intro a b c h1 h2
    simp only [decide_eq_true_eq] at h1 h2 ⊢
    omega
  have htotal : ∀ a b : String × ℕ,
      (decide (a.2 ≤ b.2) || decide (b.2 ≤ a.2)) = true := by
    intro a b
    simp only [Bool.or_eq_true, decide_eq_true_eq]
    omega
  have hpw : List.Pairwise (fun a b : String × ℕ => a.2 ≤ b.2)
      (W.mergeSort (fun a b => decide (a.2 ≤ b.2))) :=
    (List.sorted_mergeSort htrans htotal W).imp (fun h => of_decide_eq_true h)
  have hfil : List.Pairwise (fun a b : String × ℕ => a.2 ≤ b.2)
      ((W.mergeSort (fun a b => decide (a.2 ≤ b.2))).filter
        (fun p => config.op_names.contains p.1)) :=
    hpw.filter _
  have hrw : ops_by_weight W config =
      ((W.mergeSort (fun a b => decide (a.2 ≤ b.2))).filter
        (fun p => config.op_names.contains p.1)).map Prod.fst := by
    rw [ops_by_weight, List.filter_map]
    rfl
  rw [hrw, List.map_map]
  have hmapeq : ((W.mergeSort (fun a b => decide (a.2 ≤ b.2))).filter
      (fun p => config.op_names.contains p.1)).map
        ((fun n => wlookup W n) ∘ Prod.fst) =
      ((W.mergeSort (fun a b => decide (a.2 ≤ b.2))).filter
        (fun p => config.op_names.contains p.1)).map Prod.snd := by
    apply List.map_congr_left
    intro p hp
    have hp1 : p ∈ W.mergeSort (fun a b => decide (a.2 ≤ b.2)) :=
      (List.mem_filter.mp hp).1
    have hp2 : p ∈ W := (List.mergeSort_perm W _).mem_iff.mp hp1
    exact wlookup_eq_of_mem hW hp2
  rw [hmapeq]
  exact List.pairwise_map.mpr hfil

/-- C8: the load-bearing ordering convention.  (i) `_rescale_sparsity`
depends only on the multisets of fractions and weight sizes — it sorts both
ascending before pairing them positionally; (ii) its result is the
ascending-sorted fraction vector under a common scale; (iii) the sorted
fraction vector is ascending and a permutation of the input; (iv) the weight
counts of `ops_by_weight` are ascending, so its `i`-th op has the `i`-th
smallest weight-element count; (v) `_sparsity_to_config_list` maps the
`i`-th entry of the sorted sparsity vector to the `i`-th op in
ascending-weight order, one op name per entry. -/
theorem sorting_convention_spec (W : List (String × ℕ)) (fr : List ℚ) (t : ℚ)
    (ws : List ℕ) (sp : List ℚ) (config : ConfigGroup)
    (hW : (W.map Prod.fst).Nodup) :
    (∀ fr2 ws2, fr.Perm fr2 → ws.Perm ws2 →
       rescale_sparsity fr t ws = rescale_sparsity fr2 t ws2) ∧
    (∀ v, rescale_sparsity fr t ws = some v →
       ∃ c, v = (fr.mergeSort (fun a b => decide (a ≤ b))).map
         (fun x => x * c)) ∧
    List.Sorted (· ≤ ·) (sp.mergeSort (fun a b => decide (a ≤ b))) ∧
    (sp.mergeSort (fun a b => decide (a ≤ b))).Perm sp ∧
    List.Sorted (· ≤ ·) ((ops_by_weight W config).map (fun n => wlookup W n)) ∧
    (∀ (i : ℕ) (a : ℚ) (ns : List String),
        (sparsity_to_config_list W sp config)[i]? =
          some (⟨a, ns⟩ : ConfigGroup) →
       (sp.mergeSort (fun a b => decide (a ≤ b)))[i]? = some a ∧
       ∃ n, ns = [n] ∧ (ops_by_weight W config)[i]? = some n) := by
  refine ⟨?_, ?_, List.sorted_mergeSort' sp, List.mergeSort_perm sp _,
    ops_by_weight_sorted W config hW, ?_⟩
  · intro fr2 ws2 hfr hws
    unfold rescale_sparsity
    rw [mergeSort_congr_perm hfr, mergeSort_congr_perm hws]
  · intro v hv
    unfold rescale_sparsity at hv
    by_cases hz : total_weights_pruned
        (ws.mergeSort (fun a b => decide (a ≤ b)))
        (fr.mergeSort (fun a b => decide (a ≤ b))) = 0
    · rw [if_pos hz] at hv
      exact Option.noConfusion hv
    · rw [if_neg hz] at hv
      exact ⟨_, (Option.some.injEq _ _ ▸ hv).symm⟩
  · intro i a ns hi
    unfold sparsity_to_config_list at hi
    rw [List.getElem?_map] at hi
    cases hzip : ((sp.mergeSort (fun a b => decide (a ≤ b))).zip
        (ops_by_weight W config))[i]? with
    | none =>
      rw [hzip] at hi
      exact Option.noConfusion hi
    | some q =>
      rw [hzip] at hi
      simp only [Option.map, Option.some.injEq, ConfigGroup.mk.injEq] at hi
      obtain ⟨hq1, hq2⟩ := hi
      obtain ⟨h1, h2⟩ := zip_getElem?_eq hzip
      refine ⟨by rw [h1, hq1], q.2, by rw [← hq2], h2⟩

/-- Witness for C8 at two two-op instances: rescale is invariant under
reordering its inputs, and the weight counts along `ops_by_weight` are
ascending. -/
theorem sorting_convention_spec_witness :
    rescale_sparsity [(2 : ℚ)/3, (1 : ℚ)/3] ((1 : ℚ)/2) [4, 2] =
      rescale_sparsity [(1 : ℚ)/3, (2 : ℚ)/3] ((1 : ℚ)/2) [2, 4] ∧
    List.Sorted (· ≤ ·)
      ((ops_by_weight [("a", 3), ("b", 2)] ⟨(1 : ℚ)/2, ["a", "b"]⟩).map
        (fun n => wlookup [("a", 3), ("b", 2)] n)) := by
  have h := sorting_convention_spec [("a", 3), ("b", 2)]
    [(2 : ℚ)/3, (1 : ℚ)/3] ((1 : ℚ)/2) [4, 2] [] ⟨(1 : ℚ)/2, ["a", "b"]⟩
    (by simp)
  exact ⟨h.1 [(1 : ℚ)/3, (2 : ℚ)/3] [2, 4] (List.Perm.swap _ _ _)
    (List.Perm.swap _ _ _), h.2.2.2.2.1⟩

/-- `str.title()` restricted to the behaviour `_camel_case` relies on:
an alphabetic character is uppercased when the preceding character was not
alphabetic and lowercased otherwise (Python's notion of "cased" coincides
with `isAlpha` for the ASCII identifier fragments fed here). -/
def py_title_aux : Bool → List Char → List Char
  | _, [] => []
  | prev, c :: cs =>
    if c.isAlpha then
      (if prev then c.toLower else c.toUpper) :: py_title_aux true cs
    else c :: py_title_aux false cs

/-- `name.split('_')` on the underlying characters: splits at every
underscore, keeping empty fragments. -/
def snake_words (cs : List Char) : List (List Char) :=
  cs.foldr (fun c acc =>
    if c = '_' then [] :: acc
    else
      match acc with
      | [] => [[c]]
      | w :: ws => (c :: w) :: ws) [[]]

/-- `_camel_case(name)`:
`words[0] + ''.join(word.title() for word in words[1:])`.
(`snake_words` never returns `[]`; the first branch is unreachable.) -/
def camel_case (name : String) : String :=
  match snake_words name.data with
  | [] => ""
  | w :: ws => String.mk (w ++ (ws.map (py_title_aux false)).flatten)

/-- `data.pop(camel_key)` on a JSON object modelled as an association list
(JSON object keys are unique): the looked-up value, if any, and the object
with that entry removed. -/
def pop {V : Type} (data : List (String × V)) (k : String) :
    Option V × List (String × V) :=
  match data.find? (fun p => p.1 == k) with
  | none => (none, data)
  | some p => (some p.2, data.eraseP (fun q => q.1 == k))

/-- What `Command._load` produces: the constructed object (each declared
field name bound to the copied value, or to `none` when the camel-cased key
was missing — the code logs an error and stores `None`), the field names
logged as missing, and the unrecognized leftover entries, which are only
logged at the end, never rejected. -/
structure LoadResult (V : Type) where
  obj : List (String × Option V)
  missing : List String
  leftover : List (String × V)
deriving DecidableEq

/-- `Command._load`: iterate over the declared fields, popping each
camel-cased key from the input; a total function — it never raises. -/
def command_load {V : Type} : List String → List (String × V) → LoadResult V
  | [], data => ⟨[], [], data⟩
  | f :: fs, data =>
    let r := pop data (camel_case f)
    let rest := command_load fs r.2
    ⟨(f, r.1) :: rest.obj,
     (if r.1.isNone then [f] else []) ++ rest.missing,
     rest.leftover⟩

theorem find?_eraseP_ne {V : Type} (data : List (String × V)) (k k2 : String)
    (hne : k ≠ k2) :
    (data.eraseP (fun q => q.1 == k)).find? (fun p => p.1 == k2) =
      data.find? (fun p => p.1 == k2) := by
  induction data with
  | nil => rfl
  | cons q rest ih =>
    by_cases hq : (q.1 == k) = true
    · have hq2 : (q.1 == k2) = false := by
        rw [beq_eq_false_iff_ne]
        intro h
        exact hne ((eq_of_beq hq).symm.trans h)
      simp only [List.eraseP_cons, List.find?_cons, hq, hq2, cond_true]
    · have hq' : (q.1 == k) = false := by
        cases hb : (q.1 == k) with
        | false => rfl
        | true => exact absurd hb hq
      simp only [List.eraseP_cons, List.find?_cons, hq', cond_false]
      cases hq2 : (q.1 == k2) with
      | true => simp only []
      | false => exact ih

theorem eraseP_eq_filter_of_nodup {V : Type} (data : List (String × V))
    (k : String) (hd : (data.map Prod.fst).Nodup) :
    data.eraseP (fun q => q.1 == k) = data.filter (fun q => !(q.1 == k)) := by
  induction data with
  | nil => rfl
  | cons q rest ih =>
    simp only [List.map_cons, List.nodup_cons] at hd
    obtain ⟨hh, ht⟩ := hd
    by_cases hq : (q.1 == k) = true
    · simp only [List.eraseP_cons, List.filter_cons, hq, cond_true,
        Bool.not_true, Bool.false_eq_true, if_false]
      symm
      rw [List.filter_eq_self]
      intro x hx
      simp only [Bool.not_eq_eq_eq_not, Bool.not_true, beq_eq_false_iff_ne]
      intro hxk
      apply hh
      rw [show q.1 = x.1 from (eq_of_beq hq).trans hxk.symm]
      exact List.mem_map_of_mem Prod.fst hx
    · have hq' : (q.1 == k) = false := by
        cases hb : (q.1 == k) with
        | false => rfl
        | true => exact absurd hb hq
      simp only [List.eraseP_cons, List.filter_cons, hq', cond_false,
        Bool.not_false, if_true]
      rw [ih ht]

/-- C10: for every JSON object (association list with unique keys) and
declared field list (the repository's command classes have pairwise distinct
camel-cased fields), `Command._load` returns — it never raises — with: each
field whose camel-cased key is absent bound to `none` and logged missing,
each present field bound to the value copied from the input, and exactly the
unrecognized keys left over, in order, only logged. -/
theorem command_load_spec {V : Type} (fields : List String)
    (data : List (String × V))
    (hd : (data.map Prod.fst).Nodup)
    (hf : (fields.map camel_case).Nodup) :
    (command_load fields data).obj =
      fields.map (fun f => (f,
        (data.find? (fun p => p.1 == camel_case f)).map Prod.snd)) ∧
    (command_load fields data).missing =
      fields.filter
        (fun f => (data.find? (fun p => p.1 == camel_case f)).isNone) ∧
    (command_load fields data).leftover =
      data.filter (fun p => !((fields.map camel_case).contains p.1)) := by
  induction fields generalizing data with
  | nil =>
    refine ⟨rfl, rfl, ?_⟩
    show data = List.filter _ data
    symm
    rw [List.filter_eq_self]
    intro a _
    simp
  | cons f fs ih =>
    simp only [List.map_cons, List.nodup_cons] at hf
    obtain ⟨hfh, hft⟩ := hf
    have hne : ∀ f2 ∈ fs, camel_case f ≠ camel_case f2 := by
      intro f2 hf2 he
      exact hfh (he ▸ List.mem_map_of_mem camel_case hf2)
    cases hfind : data.find? (fun p => p.1 == camel_case f) with
    | none =>
      have hpop : pop data (camel_case f) = (none, data) := by
        rw [pop, hfind]
      obtain ⟨ihobj, ihmiss, ihleft⟩ := ih data hd hft
      have hnok : ∀ x ∈ data, (x.1 == camel_case f) = false := by
        intro x hx
        have := List.find?_eq_none.mp hfind x hx
        simpa using this
      refine ⟨?_, ?_, ?_⟩
      · show (f, (pop data (camel_case f)).1) ::
            (command_load fs (pop data (camel_case f)).2).obj = _
        rw [hpop, ihobj, List.map_cons, hfind]
        rfl
      · show (if (pop data (camel_case f)).1.isNone then [f] else []) ++
            (command_load fs (pop data (camel_case f)).2).missing = _
        rw [hpop, ihmiss, List.filter_cons_of_pos (by rw [hfind]; rfl)]
        rfl
      · show (command_load fs (pop data (camel_case f)).2).leftover = _
        rw [hpop, ihleft]
        apply List.filter_congr
        intro x hx
        simp only [List.map_cons, List.contains_cons]
        rw [show (x.1 == camel_case f) = false from hnok x hx]
        rfl
    | some q =>
      have hpop : pop data (camel_case f) =
          (some q.2, data.eraseP (fun p => p.1 == camel_case f)) := by
        rw [pop, hfind]
      have hd2 : ((data.eraseP (fun p => p.1 == camel_case f)).map
          Prod.fst).Nodup :=
        ((List.eraseP_sublist data).map Prod.fst).nodup hd
      obtain ⟨ihobj, ihmiss, ihleft⟩ :=
        ih (data.eraseP (fun p => p.1 == camel_case f)) hd2 hft
      have hfind2 : ∀ f2 ∈ fs,
          (data.eraseP (fun p => p.1 == camel_case f)).find?
            (fun p => p.1 == camel_case f2) =
          data.find? (fun p => p.1 == camel_case f2) := by
        intro f2 hf2
        exact find?_eraseP_ne data (camel_case f) (camel_case f2) (hne f2 hf2)
      refine ⟨?_, ?_, ?_⟩
      · show (f, (pop data (camel_case f)).1) ::
            (command_load fs (pop data (camel_case f)).2).obj = _
        rw [hpop, ihobj, List.map_cons, hfind]
        refine congrArg₂ List.cons rfl ?_
        apply List.map_congr_left
        intro f2 hf2
        rw [hfind2 f2 hf2]
      · show (if (pop data (camel_case f)).1.isNone then [f] else []) ++
            (command_load fs (pop data (camel_case f)).2).missing = _
        rw [hpop, ihmiss, List.filter_cons_of_neg (by rw [hfind]; simp)]
        show [] ++ _ = _
        rw [List.nil_append]
        apply List.filter_congr
        intro f2 hf2
        rw [hfind2 f2 hf2]
      · show (command_load fs (pop data (camel_case f)).2).leftover = _
        rw [hpop, ihleft, eraseP_eq_filter_of_nodup data (camel_case f) hd,
          List.filter_filter]
        apply List.filter_congr
        intro x hx
        simp only [List.map_cons, List.contains_cons, Bool.not_or]
        rw [Bool.and_comm]

/-- Witness for C10 on a `NewTrialJobCommand`-shaped input: `parameter_id`
is present under key `parameterId` and copied, `parameter` is missing and
set to `none`, and the unrecognized key `extra` is left over, not
rejected. -/
theorem command_load_spec_witness :
    (command_load ["parameter_id", "parameter"]
        [("parameterId", (7 : ℕ)), ("extra", 1)]).obj =
      [("parameter_id", some 7), ("parameter", none)] ∧
    (command_load ["parameter_id", "parameter"]
        [("parameterId", (7 : ℕ)), ("extra", 1)]).missing = ["parameter"] ∧
    (command_load ["parameter_id", "parameter"]
        [("parameterId", (7 : ℕ)), ("extra", 1)]).leftover = [("extra", 1)] := by
  have h := command_load_spec ["parameter_id", "parameter"]
    [("parameterId", (7 : ℕ)), ("extra", 1)] (by decide) (by decide)
  obtain ⟨h1, h2, h3⟩ := h
  refine ⟨?_, ?_, ?_⟩
  · rw [h1]; decide
  · rw [h2]; decide
  · rw [h3]; decide

end NNI
